import Mathlib

/-!
Verification of the streaming JSON tokenizer and AST builder
(`stream_json_tokenizer.go` and the parser file of the same package).

The Go code is embedded shallowly:

* the tokenizer's byte buffer is a `List Char` (all inputs relevant here are
  ASCII, one `Char` per byte); its mutable fields become the record
  `TokState`, and every Go scanning loop becomes a structurally recursive
  function on `buffer.length - position`;
* the AST builder's mutable `Node` tree with parent pointers is represented
  by the stack of open frames: each open container's partial contents live
  in its `Frame`, closed children are plugged into the parent frame when the
  container pops (Go attaches the child pointer when the container opens and
  mutates it in place; the `attach` slot recorded in each frame reproduces
  exactly that attachment, and `currentRoot` materializes the tree a reader
  of the Go heap would see from `p.root`);
* `strconv.ParseInt`/`ParseFloat`/`Atoi` are modelled by `parseInt64`,
  `parseFloat64` and `atoi`: sign/digit syntax and 64-bit range checking are
  exact; a successfully parsed float is kept as its exact decimal rational
  value (IEEE rounding is not modelled; no theorem below depends on it).

`processTokens` is the Go drain loop; it is given explicit fuel
(`2 * buffer.length + 4`), which bounds the number of iterations of every
terminating run of the Go loop (each iteration either stops, consumes a
byte, or completes a pending token and then consumes or stops).
-/

namespace StreamJSON

/-- `isDigit` from the number dispatch in `NextToken` (`char >= '0' && char <= '9'`). -/
def isDigit (c : Char) : Bool :=
  decide ('0' ≤ c ∧ c ≤ '9')

/-- `isNumberChar` (stream_json_tokenizer.go): digits, '.', 'e', 'E', '+', '-'. -/
def isNumberChar (c : Char) : Bool :=
  isDigit c || c == '.' || c == 'e' || c == 'E' || c == '+' || c == '-'

/-- `isLetter` (stream_json_tokenizer.go): ASCII letters. -/
def isLetter (c : Char) : Bool :=
  decide ('a' ≤ c ∧ c ≤ 'z') || decide ('A' ≤ c ∧ c ≤ 'Z')

/-- Whitespace test used by `skipWhitespace`. -/
def isWS (c : Char) : Bool :=
  c == ' ' || c == '\t' || c == '\n' || c == '\r'

/-- `TokenType` from stream_json_tokenizer.go. -/
inductive TokenType where
  | objectStart
  | objectEnd
  | arrayStart
  | arrayEnd
  | number
  | bool
  | objectKey
  | str
  | colon
  | comma
  | null
  | eof
  | invalid
deriving DecidableEq, Repr

/-- `Token` from stream_json_tokenizer.go; `Content` is kept as a character list. -/
structure Token where
  tokenStart : Nat
  tokenEnd : Nat
  tokenType : TokenType
  content : List Char
  completed : Bool
deriving DecidableEq, Repr

/-- The mutable fields of `StreamJSONTokenizer`. -/
structure TokState where
  buffer : List Char
  position : Nat
  lastToken : Option Token
  escapeNext : Bool
  expectingKey : Bool
deriving Repr

/-- `NewStreamJSONTokenizer`. -/
def newTokenizer : TokState :=
  { buffer := [], position := 0, lastToken := none, escapeNext := false,
    expectingKey := false }

/-- Tokenizer `Append`: the buffer grows, nothing else changes. -/
def tokAppend (ts : TokState) (content : List Char) : TokState :=
  { ts with buffer := ts.buffer ++ content }

/-- Loop body of `skipWhitespace`, walking the buffer suffix that starts at
the current position (structural recursion on the suffix, so that concrete
runs reduce inside the kernel). -/
def skipWSAux : List Char → Nat → Nat
  | [], pos => pos
  | c :: rest, pos => if isWS c then skipWSAux rest (pos + 1) else pos

/-- `skipWhitespace`: advance past whitespace characters. -/
def skipWhitespace (buf : List Char) (pos : Nat) : Nat :=
  skipWSAux (buf.drop pos) pos

/-- `buildString(start, end)`: the slice `buffer[start:end]`. -/
def buildString (buf : List Char) (s e : Nat) : List Char :=
  (buf.drop s).take (e - s)

/-- Loop body shared by `parseString` and `continueString`: walk the buffer
suffix tracking the escape flag; returns the final position, the final escape
flag, and whether an unescaped closing quote was consumed. -/
def stringScanAux : List Char → Nat → Bool → Nat × Bool × Bool
  | [], pos, esc => (pos, esc, false)
  | c :: rest, pos, esc =>
    if esc then stringScanAux rest (pos + 1) false
    else if c == '\\' then stringScanAux rest (pos + 1) true
    else if c == '"' then (pos + 1, false, true)
    else stringScanAux rest (pos + 1) esc

/-- The string scanning loop from absolute position `pos`. -/
def stringScan (buf : List Char) (pos : Nat) (esc : Bool) : Nat × Bool × Bool :=
  stringScanAux (buf.drop pos) pos esc

/-- Loop body of the number-character run. -/
def numScanAux : List Char → Nat → Nat
  | [], pos => pos
  | c :: rest, pos => if isNumberChar c then numScanAux rest (pos + 1) else pos

/-- The digit run consumed by `parseNumber`/`continueNumber`. -/
def numScan (buf : List Char) (pos : Nat) : Nat :=
  numScanAux (buf.drop pos) pos

/-- Loop body of the letter run. -/
def letterScanAux : List Char → Nat → Nat
  | [], pos => pos
  | c :: rest, pos => if isLetter c then letterScanAux rest (pos + 1) else pos

/-- The letter run consumed after a malformed literal
(`for t.position < len(t.buffer) && isLetter(...) { t.position++ }`). -/
def letterScan (buf : List Char) (pos : Nat) : Nat :=
  letterScanAux (buf.drop pos) pos

/-- Result of the byte-for-byte literal matching loop in
`parseBool`/`parseNull`/`continueBool`/`continueNull`. -/
inductive LitRes where
  | mismatch (pos : Nat)
  | ended (pos : Nat)
deriving DecidableEq, Repr

/-- Loop body of the literal match: walk the not-yet-matched suffix of the
expected word, comparing against the buffer at the running position. -/
def litScanAux (buf : List Char) : List Char → Nat → LitRes
  | [], pos => .ended pos
  | e :: erest, pos =>
    match buf.get? pos with
    | none => .ended pos
    | some c => if c == e then litScanAux buf erest (pos + 1) else .mismatch pos

/-- The loop `for i < len(expected) && position < len(buffer)`: compare
`buffer[position]` with `expected[i]`; stop at the first mismatch (reporting
the buffer position of the mismatching byte) or when either index runs out. -/
def litScan (buf expected : List Char) (i pos : Nat) : LitRes :=
  litScanAux buf (expected.drop i) pos

/-- The word `true` matched by `parseBool`. -/
def trueChars : List Char := ['t', 'r', 'u', 'e']

/-- The word `false` matched by `parseBool`. -/
def falseChars : List Char := ['f', 'a', 'l', 's', 'e']

/-- The word `null` matched by `parseNull`. -/
def nullChars : List Char := ['n', 'u', 'l', 'l']

/-- `parseString`: skip the opening quote, scan with escape tracking.  The
token's kind (`ObjectKey` vs `String`) is decided by the `expectingKey` flag;
an incomplete token is recorded in `lastToken`. -/
def parseString (ts : TokState) (startPos : Nat) : Token × TokState :=
  let r := stringScan ts.buffer (ts.position + 1) ts.escapeNext
  let tokenType := if ts.expectingKey then TokenType.objectKey else TokenType.str
  let token : Token :=
    { tokenStart := startPos, tokenEnd := r.1, tokenType := tokenType,
      content := buildString ts.buffer startPos r.1, completed := r.2.2 }
  if r.2.2 then
    (token, { ts with position := r.1, escapeNext := r.2.1 })
  else
    (token, { ts with position := r.1, escapeNext := r.2.1, lastToken := some token })

/-- `continueString`: resume the same scan from the stored escape flag; the
content is rebuilt from the token's recorded start.  (`lastToken` bookkeeping
is done by the `NextToken` wrapper.) -/
def continueString (ts : TokState) (t : Token) : Token × TokState :=
  let r := stringScan ts.buffer ts.position ts.escapeNext
  let token : Token :=
    { tokenStart := t.tokenStart, tokenEnd := r.1, tokenType := t.tokenType,
      content := buildString ts.buffer t.tokenStart r.1, completed := r.2.2 }
  (token, { ts with position := r.1, escapeNext := r.2.1 })

/-- `parseNumber`: optional leading '-', then a run of number characters; the
token is complete only when a following non-number byte is visible. -/
def parseNumber (ts : TokState) (startPos : Nat) : Token × TokState :=
  let p1 := if ts.buffer.get? ts.position == some '-' then ts.position + 1 else ts.position
  let p2 := numScan ts.buffer p1
  let completed :=
    match ts.buffer.get? p2 with
    | some c => !isNumberChar c
    | none => false
  let token : Token :=
    { tokenStart := startPos, tokenEnd := p2, tokenType := .number,
      content := buildString ts.buffer startPos p2, completed := completed }
  if completed then
    (token, { ts with position := p2 })
  else
    (token, { ts with position := p2, lastToken := some token })

/-- `continueNumber`: extend the digit run and re-test completeness. -/
def continueNumber (ts : TokState) (t : Token) : Token × TokState :=
  let p2 := numScan ts.buffer ts.position
  let completed :=
    match ts.buffer.get? p2 with
    | some c => !isNumberChar c
    | none => false
  let token : Token :=
    { tokenStart := t.tokenStart, tokenEnd := p2, tokenType := .number,
      content := buildString ts.buffer t.tokenStart p2, completed := completed }
  (token, { ts with position := p2 })

/-- `parseBool`: match `true`/`false` byte for byte.  A mismatch consumes the
single mismatching byte and yields a complete Invalid token; a full match
followed by a letter consumes the whole letter run as Invalid; a full match
otherwise is a complete Bool; running out of buffer mid-word is incomplete. -/
def parseBool (ts : TokState) (startPos : Nat) : Token × TokState :=
  let expected := if ts.buffer.get? ts.position == some 't' then trueChars else falseChars
  match litScan ts.buffer expected 0 ts.position with
  | .mismatch p =>
    let token : Token :=
      { tokenStart := startPos, tokenEnd := p + 1, tokenType := .invalid,
        content := buildString ts.buffer startPos (p + 1), completed := true }
    (token, { ts with position := p + 1 })
  | .ended p =>
    if p - startPos == expected.length then
      match ts.buffer.get? p with
      | some c =>
        if isLetter c then
          let pl := letterScan ts.buffer p
          let token : Token :=
            { tokenStart := startPos, tokenEnd := pl, tokenType := .invalid,
              content := buildString ts.buffer startPos pl, completed := true }
          (token, { ts with position := pl })
        else
          (⟨startPos, p, .bool, buildString ts.buffer startPos p, true⟩,
           { ts with position := p })
      | none =>
        (⟨startPos, p, .bool, buildString ts.buffer startPos p, true⟩,
         { ts with position := p })
    else
      let token : Token :=
        { tokenStart := startPos, tokenEnd := p, tokenType := .bool,
          content := buildString ts.buffer startPos p, completed := false }
      (token, { ts with position := p, lastToken := some token })

/-- `continueBool`: resume the literal match at index `TokenEnd - TokenStart`.
Unlike the initial scan, a mismatch here greedily consumes the letter run. -/
def continueBool (ts : TokState) (t : Token) : Token × TokState :=
  let tokenLen := t.tokenEnd - t.tokenStart
  let expected :=
    if tokenLen > 0 && ts.buffer.get? t.tokenStart == some 't' then trueChars else falseChars
  match litScan ts.buffer expected tokenLen ts.position with
  | .mismatch p =>
    let pl := letterScan ts.buffer p
    let token : Token :=
      { tokenStart := t.tokenStart, tokenEnd := pl, tokenType := .invalid,
        content := buildString ts.buffer t.tokenStart pl, completed := true }
    (token, { ts with position := pl })
  | .ended p =>
    if p - t.tokenStart == expected.length then
      match ts.buffer.get? p with
      | some c =>
        if isLetter c then
          let pl := letterScan ts.buffer p
          let token : Token :=
            { tokenStart := t.tokenStart, tokenEnd := pl, tokenType := .invalid,
              content := buildString ts.buffer t.tokenStart pl, completed := true }
          (token, { ts with position := pl })
        else
          (⟨t.tokenStart, p, .bool, buildString ts.buffer t.tokenStart p, true⟩,
           { ts with position := p })
      | none =>
        (⟨t.tokenStart, p, .bool, buildString ts.buffer t.tokenStart p, true⟩,
         { ts with position := p })
    else
      (⟨t.tokenStart, p, .bool, buildString ts.buffer t.tokenStart p, false⟩,
       { ts with position := p })

/-- `parseNull`: same shape as `parseBool` against the word `null`. -/
def parseNull (ts : TokState) (startPos : Nat) : Token × TokState :=
  match litScan ts.buffer nullChars 0 ts.position with
  | .mismatch p =>
    let token : Token :=
      { tokenStart := startPos, tokenEnd := p + 1, tokenType := .invalid,
        content := buildString ts.buffer startPos (p + 1), completed := true }
    (token, { ts with position := p + 1 })
  | .ended p =>
    if p - startPos == nullChars.length then
      match ts.buffer.get? p with
      | some c =>
        if isLetter c then
          let pl := letterScan ts.buffer p
          let token : Token :=
            { tokenStart := startPos, tokenEnd := pl, tokenType := .invalid,
              content := buildString ts.buffer startPos pl, completed := true }
          (token, { ts with position := pl })
        else
          (⟨startPos, p, .null, buildString ts.buffer startPos p, true⟩,
           { ts with position := p })
      | none =>
        (⟨startPos, p, .null, buildString ts.buffer startPos p, true⟩,
         { ts with position := p })
    else
      let token : Token :=
        { tokenStart := startPos, tokenEnd := p, tokenType := .null,
          content := buildString ts.buffer startPos p, completed := false }
      (token, { ts with position := p, lastToken := some token })

/-- `continueNull`: resume matching `null`; mismatch consumes the letter run. -/
def continueNull (ts : TokState) (t : Token) : Token × TokState :=
  let tokenLen := t.tokenEnd - t.tokenStart
  match litScan ts.buffer nullChars tokenLen ts.position with
  | .mismatch p =>
    let pl := letterScan ts.buffer p
    let token : Token :=
      { tokenStart := t.tokenStart, tokenEnd := pl, tokenType := .invalid,
        content := buildString ts.buffer t.tokenStart pl, completed := true }
    (token, { ts with position := pl })
  | .ended p =>
    if p - t.tokenStart == nullChars.length then
      match ts.buffer.get? p with
      | some c =>
        if isLetter c then
          let pl := letterScan ts.buffer p
          let token : Token :=
            { tokenStart := t.tokenStart, tokenEnd := pl, tokenType := .invalid,
              content := buildString ts.buffer t.tokenStart pl, completed := true }
          (token, { ts with position := pl })
        else
          (⟨t.tokenStart, p, .null, buildString ts.buffer t.tokenStart p, true⟩,
           { ts with position := p })
      | none =>
        (⟨t.tokenStart, p, .null, buildString ts.buffer t.tokenStart p, true⟩,
         { ts with position := p })
    else
      (⟨t.tokenStart, p, .null, buildString ts.buffer t.tokenStart p, false⟩,
       { ts with position := p })

/-- `continueToken`: dispatch on the pending token's kind. -/
def continueToken (ts : TokState) : Token × TokState :=
  match ts.lastToken with
  | none => (⟨0, 0, .invalid, [], true⟩, ts)
  | some t =>
    match t.tokenType with
    | .str => continueString ts t
    | .objectKey => continueString ts t
    | .number => continueNumber ts t
    | .bool => continueBool ts t
    | .null => continueNull ts t
    | _ => (t, ts)

/-- The fresh-scan half of `NextToken`: skip whitespace, dispatch on the
current byte.  Structural singles update `expectingKey`. -/
def freshScan (ts0 : TokState) : Token × TokState :=
  let pos := skipWhitespace ts0.buffer ts0.position
  let ts : TokState := { ts0 with position := pos }
  match ts.buffer.get? pos with
  | none => (⟨pos, pos, .eof, [], true⟩, ts)
  | some c =>
    if c == '\x7b' then
      (⟨pos, pos + 1, .objectStart, [c], true⟩,
       { ts with position := pos + 1, expectingKey := true })
    else if c == '\x7d' then
      (⟨pos, pos + 1, .objectEnd, [c], true⟩,
       { ts with position := pos + 1, expectingKey := false })
    else if c == '[' then
      (⟨pos, pos + 1, .arrayStart, [c], true⟩,
       { ts with position := pos + 1, expectingKey := false })
    else if c == ']' then
      (⟨pos, pos + 1, .arrayEnd, [c], true⟩, { ts with position := pos + 1 })
    else if c == ':' then
      (⟨pos, pos + 1, .colon, [c], true⟩,
       { ts with position := pos + 1, expectingKey := false })
    else if c == ',' then
      (⟨pos, pos + 1, .comma, [c], true⟩,
       { ts with position := pos + 1, expectingKey := true })
    else if c == '"' then parseString ts pos
    else if c == 't' || c == 'f' then parseBool ts pos
    else if c == 'n' then parseNull ts pos
    else if c == '-' || isDigit c then parseNumber ts pos
    else
      (⟨pos, pos + 1, .invalid, [c], true⟩, { ts with position := pos + 1 })

/-- `NextToken`: continue a pending incomplete token if there is one
(keeping `lastToken` in sync), otherwise scan afresh. -/
def nextToken (ts : TokState) : Token × TokState :=
  match ts.lastToken with
  | some lt =>
    if lt.completed then freshScan ts
    else
      let r := continueToken ts
      if r.1.completed then (r.1, { r.2 with lastToken := none })
      else (r.1, { r.2 with lastToken := some r.1 })
  | none => freshScan ts

/-- Decimal value of a digit character. -/
def digitVal (c : Char) : Nat := c.toNat - '0'.toNat

/-- Accumulate the value of a digit run. -/
def digitsVal (l : List Char) : Nat :=
  l.foldl (fun acc c => 10 * acc + digitVal c) 0

/-- Model of `strconv.ParseInt(s, 10, 64)` (and of `strconv.Atoi` on a 64-bit
platform): an optional single sign, then a nonempty run of decimal digits,
rejected on any other character or when the value leaves the signed 64-bit
range. -/
def parseInt64 (s : List Char) : Option Int :=
  let core : List Char → Int → Option Int := fun ds sign =>
    if ds = [] then none
    else if ds.all isDigit then
      let v : Int := sign * (digitsVal ds : Int)
      if -(2 ^ 63) ≤ v ∧ v < 2 ^ 63 then some v else none
    else none
  match s with
  | '+' :: rest => core rest 1
  | '-' :: rest => core rest (-1)
  | _ => core s 1

/-- `strconv.Atoi` is `ParseInt(s, 10, 0)`; on a 64-bit platform that is
exactly the 64-bit parse above. -/
def atoi (s : List Char) : Option Int := parseInt64 s

/-- A float kept as its exact decimal value `mant * 10 ^ exp10` (parsing
yields a canonical pair directly from the digit runs; IEEE rounding is not
modelled and no theorem below depends on the rounded value). -/
structure DecF where
  mant : Int
  exp10 : Int
deriving DecidableEq, Repr

/-- Largest finite 64-bit float (an integer). -/
def maxFloat64N : Nat := 2 ^ 1024 - 2 ^ 971

/-- `|mant * 10 ^ e|` exceeds the largest finite 64-bit float (integer
comparison on either side of the decimal point). -/
def decfTooLarge (mant e : Int) : Bool :=
  if 0 ≤ e then decide (maxFloat64N < mant.natAbs * 10 ^ e.toNat)
  else decide (maxFloat64N * 10 ^ (-e).toNat < mant.natAbs)

/-- A nonzero `mant * 10 ^ e` would round to zero (below half the smallest
subnormal, `2 ^ (-1075)`). -/
def decfUnderflows (mant e : Int) : Bool :=
  if 0 ≤ e then false
  else decide (mant.natAbs * 2 ^ 1075 < 10 ^ (-e).toNat)

/-- Model of `strconv.ParseFloat(s, 64)` restricted to the character set the
number tokenizer can produce (sign, digits, '.', 'e', 'E', '+', '-'): the Go
decimal grammar `[sign] digits [. digits] [e [sign] digits]` with at least
one mantissa digit and the whole input consumed; out-of-range magnitudes are
rejected like Go's `ErrRange` (a nonzero value past the largest finite float
or underflowing to zero). -/
def parseFloat64 (s : List Char) : Option DecF :=
  let signed : List Char × Int :=
    match s with
    | '+' :: rest => (rest, 1)
    | '-' :: rest => (rest, -1)
    | _ => (s, 1)
  let rest0 := signed.1
  let intDigits := rest0.takeWhile isDigit
  let rest1 := rest0.dropWhile isDigit
  let fracPair : List Char × List Char :=
    match rest1 with
    | '.' :: r2 => (r2.takeWhile isDigit, r2.dropWhile isDigit)
    | _ => ([], rest1)
  let fracDigits := fracPair.1
  if intDigits = [] ∧ fracDigits = [] then none
  else
    let expPart : Option Int :=
      match fracPair.2 with
      | [] => some 0
      | e :: r3 =>
        if e == 'e' || e == 'E' then
          let esigned : List Char × Int :=
            match r3 with
            | '+' :: r4 => (r4, 1)
            | '-' :: r4 => (r4, -1)
            | _ => (r3, 1)
          if esigned.1 ≠ [] ∧ esigned.1.all isDigit then
            some (esigned.2 * (digitsVal esigned.1 : Int))
          else none
        else none
    match expPart with
    | none => none
    | some ex =>
      let mant : Int :=
        signed.2 * ((digitsVal intDigits * 10 ^ fracDigits.length + digitsVal fracDigits : Nat) : Int)
      let e : Int := ex - fracDigits.length
      if mant = 0 then some ⟨0, 0⟩
      else if decfTooLarge mant e then none
      else if decfUnderflows mant e then none
      else some ⟨mant, e⟩

/-- The scalar stored in a Value `Node` (`Node.Value interface\x7b\x7d`):
a Go string, int64, float64, bool, or the nil stored for JSON null. -/
inductive ValScalar where
  | vstr (s : List Char)
  | vint (n : Int)
  | vfloat (f : DecF)
  | vbool (b : Bool)
  | vnull
deriving DecidableEq, Repr

/-- The first-'.'-or-exponent scan in `parseTokenValue` (`hasDecimal`,
`hasExp`): true iff the loop sets either flag. -/
def numHasSpecial : List Char → Bool
  | [] => false
  | c :: rest =>
    if c == '.' || c == 'e' || c == 'E' then true else numHasSpecial rest

/-- `parseTokenValue`: decode a complete value token's content to a scalar. -/
def parseTokenValue (t : Token) : ValScalar :=
  let content := t.content
  match t.tokenType with
  | .str =>
    if 2 ≤ content.length ∧ content.head? = some '"' ∧ content.getLast? = some '"' then
      .vstr ((content.drop 1).dropLast)
    else .vstr content
  | .number =>
    let tryFloat : ValScalar :=
      match parseFloat64 content with
      | some q => .vfloat q
      | none => .vstr content
    if numHasSpecial content then tryFloat
    else
      match parseInt64 content with
      | some n => .vint n
      | none => tryFloat
  | .bool => .vbool (content.length == 4 && content.head? == some 't')
  | .null => .vnull
  | _ => .vstr content

/-- `Node` (the AST): objects carry their key-to-child mapping as an
association list standing for the Go `map[string]*Node` (insertion replaces,
lookup by key; no claim below iterates the map), arrays carry their ordered
children, value nodes a decoded scalar.  The Go `Parent` back-pointer is
write-only in the source and is not represented. -/
inductive Node where
  | obj (children : List (List Char × Node)) (completed : Bool)
  | arr (elems : List Node) (completed : Bool)
  | val (v : ValScalar) (completed : Bool)

/-- Map write `Children[k] = v`: replace an existing binding or add one. -/
def insertA (m : List (List Char × Node)) (k : List Char) (v : Node) :
    List (List Char × Node) :=
  match m with
  | [] => [(k, v)]
  | (k1, v1) :: rest =>
    if k1 = k then (k, v) :: rest else (k1, v1) :: insertA rest k v

/-- Map read `Children[key]`. -/
def lookupA (m : List (List Char × Node)) (k : List Char) : Option Node :=
  match m with
  | [] => none
  | (k1, v1) :: rest => if k1 = k then some v1 else lookupA rest k

/-- Where an open container was attached in its parent when it was created
(`handleObjectStart`/`handleArrayStart`): under a pending key, appended to an
array, at the root, or nowhere (the defensive dangling case). -/
inductive AttachSlot where
  | root
  | objKey (k : List Char)
  | arrAppend
  | dangling
deriving Repr

/-- Container kind of the node a stack frame is building. -/
inductive FrameKind where
  | obj
  | arr
deriving DecidableEq, Repr

/-- `StackFrame` plus the in-progress contents of its node (the Go frame
points at the mutable node; here the open node's children live in the frame
until it closes). -/
structure Frame where
  kind : FrameKind
  entries : List (List Char × Node)
  elems : List Node
  currentKey : List Char
  expectingKey : Bool
  expectingValue : Bool
  attach : AttachSlot

/-- The node currently described by a frame. -/
def mkNode (f : Frame) (completed : Bool) : Node :=
  match f.kind with
  | .obj => .obj f.entries completed
  | .arr => .arr f.elems completed

/-- Plug a finished (or still open) child node into its parent frame at the
slot recorded when the child was attached. -/
def plugChild (g : Frame) (slot : AttachSlot) (child : Node) : Frame :=
  match slot with
  | .objKey k => { g with entries := insertA g.entries k child }
  | .arrAppend => { g with elems := g.elems ++ [child] }
  | _ => g

/-- `StreamJSONParser` state: tokenizer, frame stack (top first), started
flag, and the root once it has closed (while frames are open the root is
materialized by `currentRoot`). -/
structure PState where
  tok : TokState
  stack : List Frame
  started : Bool
  root : Option Node

/-- `NewStreamJSONParser`. -/
def newParser : PState :=
  { tok := newTokenizer, stack := [], started := false, root := none }

/-- A fresh object frame as pushed by the builder. -/
def newObjFrame (slot : AttachSlot) : Frame :=
  { kind := .obj, entries := [], elems := [], currentKey := [],
    expectingKey := true, expectingValue := false, attach := slot }

/-- A fresh array frame as pushed by the builder. -/
def newArrFrame (slot : AttachSlot) : Frame :=
  { kind := .arr, entries := [], elems := [], currentKey := [],
    expectingKey := false, expectingValue := true, attach := slot }

/-- `handleObjectStart`/`handleArrayStart`: attach the new container under
the pending key (clearing it) or append it to the array (a parent that is
neither leaves the child dangling, exactly as the Go code attaches nowhere),
then push its frame. -/
def handleContainerStart (kind : FrameKind) (f : Frame) (rest : List Frame)
    (p : PState) : PState :=
  let slotf : AttachSlot × Frame :=
    if f.kind = .obj ∧ f.currentKey ≠ [] then
      (.objKey f.currentKey, { f with currentKey := [] })
    else if f.kind = .arr then (.arrAppend, f)
    else (.dangling, f)
  let newFrame := match kind with
    | .obj => newObjFrame slotf.1
    | .arr => newArrFrame slotf.1
  { p with stack := newFrame :: slotf.2 :: rest }

/-- `handleObjectEnd`/`handleArrayEnd` (their bodies are identical): mark the
top node complete, pop it, plug it into the parent, and clear the parent's
expecting flags. -/
def popFrame (p : PState) : PState :=
  match p.stack with
  | [] => p
  | f :: rest =>
    let node := mkNode f true
    match rest with
    | [] => { p with stack := [], root := some node }
    | g :: gs =>
      let g1 := plugChild g f.attach node
      let g2 :=
        match g1.kind with
        | .obj => { g1 with expectingKey := false, expectingValue := false }
        | .arr => { g1 with expectingValue := false }
      { p with stack := g2 :: gs }

/-- `handleObjectKey`: on an object frame, strip the surrounding quotes and
store the key; on any other frame the token is ignored. -/
def handleObjectKeyF (t : Token) (f : Frame) : Frame :=
  if f.kind = .obj then
    let content := t.content
    let k :=
      if 2 ≤ content.length ∧ content.head? = some '"' ∧ content.getLast? = some '"' then
        (content.drop 1).dropLast
      else content
    { f with currentKey := k, expectingKey := false }
  else f

/-- `handleComma`. -/
def handleCommaF (f : Frame) : Frame :=
  match f.kind with
  | .obj => { f with expectingKey := true, expectingValue := false, currentKey := [] }
  | .arr => { f with expectingValue := true }

/-- `handleValue`: decode the token, attach the complete value node under the
pending key or append it to the array; otherwise drop it. -/
def handleValueF (t : Token) (f : Frame) : Frame :=
  let vn := Node.val (parseTokenValue t) true
  if f.kind = .obj ∧ f.currentKey ≠ [] then
    { f with entries := insertA f.entries f.currentKey vn, currentKey := [],
             expectingValue := false }
  else if f.kind = .arr then
    { f with elems := f.elems ++ [vn], expectingValue := false }
  else f

/-- `processCompleteToken`: no open frame means the token is dropped. -/
def processCompleteToken (t : Token) (p : PState) : PState :=
  match p.stack with
  | [] => p
  | f :: rest =>
    match t.tokenType with
    | .objectStart => handleContainerStart .obj f rest p
    | .arrayStart => handleContainerStart .arr f rest p
    | .objectEnd => popFrame p
    | .arrayEnd => popFrame p
    | .objectKey => { p with stack := handleObjectKeyF t f :: rest }
    | .colon =>
      if f.kind = .obj then
        { p with stack := { f with expectingKey := false, expectingValue := true } :: rest }
      else p
    | .comma => { p with stack := handleCommaF f :: rest }
    | .str => { p with stack := handleValueF t f :: rest }
    | .number => { p with stack := handleValueF t f :: rest }
    | .bool => { p with stack := handleValueF t f :: rest }
    | .null => { p with stack := handleValueF t f :: rest }
    | _ => p

/-- `processIncompleteToken`: only an incomplete String under an object frame
with a pending key is partially materialized: a Value node carrying the
content so far with the opening quote stripped, marked incomplete.  The
pending key is not cleared, so the next partial (or the completion) replaces
this node. -/
def processIncompleteToken (t : Token) (p : PState) : PState :=
  match p.stack with
  | [] => p
  | f :: rest =>
    if t.tokenType = .str ∧ f.kind = .obj ∧ f.currentKey ≠ [] then
      match t.content with
      | '"' :: partialValue =>
        { p with stack :=
            { f with entries :=
                insertA f.entries f.currentKey (Node.val (.vstr partialValue) false) } :: rest }
      | _ => p
    else p

/-- The not-yet-started branch of `processTokens`: the first
`ObjectStart`/`ArrayStart` creates the root and its frame; every other token
is discarded. -/
def startIfOpen (t : Token) (p : PState) : PState :=
  if t.tokenType = .objectStart then
    { p with stack := [newObjFrame .root], started := true }
  else if t.tokenType = .arrayStart then
    { p with stack := [newArrFrame .root], started := true }
  else p

/-- `processTokens`: drain tokens until EOF or an incomplete token (after
folding it in).  The fuel bounds the iterations of the Go `for` loop; every
terminating run of the Go loop is reproduced exactly by a sufficiently large
fuel, and `append` below always supplies one.  (On inputs where the Go loop
does not terminate — an incomplete token arriving before any root — the fuel
simply truncates the repetition of the state-preserving iteration.) -/
def processTokens (fuel : Nat) (p : PState) : PState :=
  match fuel with
  | 0 => p
  | fuel + 1 =>
    let r := nextToken p.tok
    let p1 : PState := { p with tok := r.2 }
    if r.1.tokenType = .eof then p1
    else if r.1.tokenType = .invalid then processTokens fuel p1
    else if p1.started = false then processTokens fuel (startIfOpen r.1 p1)
    else if r.1.completed then processTokens fuel (processCompleteToken r.1 p1)
    else processIncompleteToken r.1 p1

/-- Parser `Append`: extend the tokenizer buffer, then drain. -/
def append (p : PState) (content : List Char) : PState :=
  let p1 : PState := { p with tok := tokAppend p.tok content }
  processTokens (2 * p1.tok.buffer.length + 4) p1

/-- Rebuild the tree above an open frame: plug the open child into each
enclosing open frame in turn (each open node is incomplete, exactly as the
Go nodes remain `Completed=false` until their close token). -/
def foldUp (n : Node) (slot : AttachSlot) : List Frame → Node
  | [] => n
  | g :: gs => foldUp (mkNode (plugChild g slot n) false) g.attach gs

/-- The tree reachable from the Go parser's `root` pointer right now: the
closed root if parsing finished, the collapsed open stack while it is in
progress, nothing before parsing started. -/
def currentRoot (p : PState) : Option Node :=
  match p.stack with
  | [] => p.root
  | f :: rest => some (foldUp (mkNode f false) f.attach rest)

/-- What Go's `Get` hands back through `interface\x7b\x7d`: nil (not-found,
and also the stored nil of a JSON null), a scalar, or a raw `*Node` handle. -/
inductive GetResult where
  | nil
  | rstr (s : List Char)
  | rint (n : Int)
  | rfloat (f : DecF)
  | rbool (b : Bool)
  | node (n : Node)

/-- Unwrap a Value node's scalar for `Get` (`node.Value`); the stored nil of
a JSON null is indistinguishable from not-found, as in Go. -/
def scalRes (v : ValScalar) : GetResult :=
  match v with
  | .vstr s => .rstr s
  | .vint n => .rint n
  | .vfloat f => .rfloat f
  | .vbool b => .rbool b
  | .vnull => .nil

/-- `getFromNode`: walk the path; an object looks the segment up as a key, an
array parses it with `Atoi` and bounds-checks, a value node rejects any
further segment; at the end a value node yields its scalar and a container
node is returned as the node itself. -/
def getFromNode (node : Node) (keys : List (List Char)) : GetResult :=
  match keys with
  | [] =>
    match node with
    | .val v _ => scalRes v
    | _ => .node node
  | k :: rest =>
    match node with
    | .obj children _ =>
      match lookupA children k with
      | some child =>
        if rest.isEmpty then
          match child with
          | .val v _ => scalRes v
          | _ => .node child
        else getFromNode child rest
      | none => .nil
    | .arr elems _ =>
      match atoi k with
      | some index =>
        if h : 0 ≤ index ∧ index.toNat < elems.length then
          let child := elems.get ⟨index.toNat, h.2⟩
          if rest.isEmpty then
            match child with
            | .val v _ => scalRes v
            | _ => .node child
          else getFromNode child rest
        else .nil
      | none => .nil
    | .val _ _ => .nil

/-- `Get`: nil when there is no root or the path is empty. -/
def get (p : PState) (keys : List (List Char)) : GetResult :=
  match currentRoot p with
  | none => .nil
  | some r =>
    match keys with
    | [] => .nil
    | _ => getFromNode r keys

/-- `IsCompleted`: the stack is empty and parsing has started. -/
def isCompleted (p : PState) : Bool :=
  p.stack.isEmpty && p.started

/-! ## Claims -/

/-- C1: the claim says `Get` on a path ending at a container returns the
container reconstructed as a plain mapping/sequence and never an internal
tree `Node` handle.  On the input of the repository's own
`TestStreamJSONParserGetObject`, `getFromNode` returns the raw internal
object `Node` for the path `user` (the `return child` branch for container
nodes), not a plain mapping: the code contradicts the claim and its own
test, which asserts a `map[string]interface\x7b\x7d` result. -/
theorem c1_get_returns_internal_node_handle :
    get (append newParser
        (("\x7b\"user\":\x7b\"name\":\"Alice\",\"age\":25\x7d,\"status\":\"active\"\x7d").data))
      [(("user").data)] =
    .node (.obj [((("name").data), .val (.vstr (("Alice").data)) true),
                 ((("age").data), .val (.vint 25) true)] true) := by
  rfl

/-- C2: chunk-boundary invariance fails on the text `\x7b"a":t"b"\x7d`.  Fed
in one `Append`, `parseBool`'s mismatch branch consumes the opening quote
after the bogus literal `t`, desynchronizing the tokenizer: the final string
is left incomplete, `Get` on `a` sees the partially materialized `\x7d`, and
the document never completes.  Fed as `\x7b"a":t` then `"b"\x7d`, the
mismatch is instead handled by `continueBool`, which does not consume the
non-letter quote: the same total text yields `Get` on `a` equal to `b` and a
completed document. -/
theorem c2_chunk_boundary_variance :
    get (append newParser (("\x7b\"a\":t\"b\"\x7d").data)) [(("a").data)] =
        .rstr (("\x7d").data)
    ∧ isCompleted (append newParser (("\x7b\"a\":t\"b\"\x7d").data)) = false
    ∧ get (append (append newParser (("\x7b\"a\":t").data)) (("\"b\"\x7d").data))
        [(("a").data)] = .rstr (("b").data)
    ∧ isCompleted (append (append newParser (("\x7b\"a\":t").data)) (("\"b\"\x7d").data))
        = true := by
  exact ⟨rfl, rfl, rfl, rfl⟩

/-- C9: before a root exists every token other than `ObjectStart`/`ArrayStart`
is discarded without touching the builder state, the first
`ObjectStart`/`ArrayStart` creates the root node and the first frame, and on
the concrete input `invalid text \x7b"valid": true\x7d` the parse completes
with `Get` on `valid` returning the boolean true. -/
theorem c9_leading_junk_tolerated :
    (∀ (t : Token) (p : PState), t.tokenType ≠ .objectStart → t.tokenType ≠ .arrayStart →
      startIfOpen t p = p)
    ∧ (∀ (t : Token) (p : PState), t.tokenType = .objectStart →
      startIfOpen t p = { p with stack := [newObjFrame .root], started := true })
    ∧ (∀ (t : Token) (p : PState), t.tokenType = .arrayStart →
      startIfOpen t p = { p with stack := [newArrFrame .root], started := true })
    ∧ isCompleted (append newParser (("invalid text \x7b\"valid\": true\x7d").data)) = true
    ∧ get (append newParser (("invalid text \x7b\"valid\": true\x7d").data))
        [(("valid").data)] = .rbool true := by
  refine ⟨?_, ?_, ?_, rfl, rfl⟩
  · intro t p h1 h2
    simp [startIfOpen, h1, h2]
  · intro t p h1
    simp [startIfOpen, h1]
  · intro t p h1
    have h2 : t.tokenType ≠ .objectStart := by
      rw [h1]; intro hc; cases hc
    simp [startIfOpen, h1, h2]

/-- Witness for C9: the third token of the scenario input (the single-byte
Invalid `v`) is discarded by the not-yet-started builder. -/
theorem c9_witness :
    startIfOpen ⟨0, 1, .invalid, [('i')], true⟩ newParser = newParser :=
  c9_leading_junk_tolerated.1 _ _ (by decide) (by decide)

/-- C10: a Comma token always sets the tokenizer's `expectingKey` flag (there
is no array/object distinction at the tokenizer level), so the string element
after the comma in `["a","b"]` is tokenized as an `ObjectKey`; the builder's
`handleObjectKey` ignores key tokens on an array frame, so the element is
never appended: the final root array holds only `a`, and `Get` on index `1`
is not-found while index `0` yields `a`. -/
theorem c10_comma_miscategorizes_array_strings :
    (∀ ts : TokState, ts.lastToken = none →
      ts.buffer.get? (skipWhitespace ts.buffer ts.position) = some ',' →
      (nextToken ts).1.tokenType = .comma ∧ (nextToken ts).2.expectingKey = true)
    ∧ (∀ (t : Token) (f : Frame), f.kind = .arr → handleObjectKeyF t f = f)
    ∧ currentRoot (append newParser (("[\"a\",\"b\"]").data)) =
        some (.arr [.val (.vstr (("a").data)) true] true)
    ∧ get (append newParser (("[\"a\",\"b\"]").data)) [(("0").data)] =
        .rstr (("a").data)
    ∧ get (append newParser (("[\"a\",\"b\"]").data)) [(("1").data)] = .nil := by
  refine ⟨?_, ?_, rfl, rfl, rfl⟩
  · intro ts h1 h2
    rw [List.get?_eq_getElem?] at h2
    simp [nextToken, freshScan, h1, h2]
  · intro t f h
    simp [handleObjectKeyF, h]

/-- Witness for C10: a comma seen by a fresh tokenizer state sets
`expectingKey`. -/
theorem c10_witness :
    (nextToken { newTokenizer with buffer := [(',')] }).1.tokenType = .comma ∧
    (nextToken { newTokenizer with buffer := [(',')] }).2.expectingKey = true :=
  c10_comma_miscategorizes_array_strings.1 _ rfl rfl

/-- C7: `Get` never raises and every miss yields the not-found result: an
empty path (whether or not a root exists), a missing object key, an array
segment that `Atoi` rejects, an in-range check failure, and any segment
applied to a scalar Value node all return nil. -/
theorem c7_get_misses_yield_not_found :
    (∀ p : PState, get p [] = .nil)
    ∧ (∀ (children : List (List Char × Node)) (comp : Bool) (k : List Char)
        (rest : List (List Char)), lookupA children k = none →
        getFromNode (.obj children comp) (k :: rest) = .nil)
    ∧ (∀ (elems : List Node) (comp : Bool) (k : List Char) (rest : List (List Char)),
        atoi k = none → getFromNode (.arr elems comp) (k :: rest) = .nil)
    ∧ (∀ (elems : List Node) (comp : Bool) (k : List Char) (rest : List (List Char))
        (i : Int), atoi k = some i → ¬(0 ≤ i ∧ i.toNat < elems.length) →
        getFromNode (.arr elems comp) (k :: rest) = .nil)
    ∧ (∀ (v : ValScalar) (comp : Bool) (k : List Char) (rest : List (List Char)),
        getFromNode (.val v comp) (k :: rest) = .nil) := by
  refine ⟨?_, ?_, ?_, ?_, ?_⟩
  · intro p
    unfold get
    cases currentRoot p <;> rfl
  · intro children comp k rest h
    simp [getFromNode, h]
  · intro elems comp k rest h
    simp [getFromNode, h]
  · intro elems comp k rest i h1 h2
    simp only [getFromNode, h1]
    rw [dif_neg h2]
  · intro v comp k rest
    rfl

/-- Witness for C7: a concrete missing key, a non-numeric array index, an
out-of-range index, and a segment into a scalar. -/
theorem c7_witness :
    get newParser [] = .nil
    ∧ getFromNode (.obj [] true) [(("x").data)] = .nil
    ∧ getFromNode (.arr [] true) [(("x").data)] = .nil
    ∧ getFromNode (.arr [] true) [(("0").data)] = .nil
    ∧ getFromNode (.val (.vbool true) true) [(("x").data)] = .nil :=
  ⟨c7_get_misses_yield_not_found.1 newParser,
   c7_get_misses_yield_not_found.2.1 [] true (("x").data) [] rfl,
   c7_get_misses_yield_not_found.2.2.1 [] true (("x").data) [] rfl,
   c7_get_misses_yield_not_found.2.2.2.1 [] true (("0").data) [] 0 rfl (by simp),
   c7_get_misses_yield_not_found.2.2.2.2 (.vbool true) true (("x").data) []⟩

/-- C8: decoding a complete Number token: the `hasDecimal`/`hasExp` scan
fires exactly when the text contains a '.', 'e', or 'E'; without one the
signed 64-bit integer parse is attempted first, then the float parse, and a
text both parsers reject decodes to the raw text — there is no failure
outcome. -/
theorem c8_number_decoding_fallback :
    (∀ c : List Char, numHasSpecial c = false ↔ (∀ ch ∈ c, ch ≠ '.' ∧ ch ≠ 'e' ∧ ch ≠ 'E'))
    ∧ (∀ (t : Token) (n : Int), t.tokenType = .number → numHasSpecial t.content = false →
        parseInt64 t.content = some n → parseTokenValue t = .vint n)
    ∧ (∀ (t : Token) (f : DecF), t.tokenType = .number → numHasSpecial t.content = false →
        parseInt64 t.content = none → parseFloat64 t.content = some f →
        parseTokenValue t = .vfloat f)
    ∧ (∀ (t : Token) (f : DecF), t.tokenType = .number → numHasSpecial t.content = true →
        parseFloat64 t.content = some f → parseTokenValue t = .vfloat f)
    ∧ (∀ t : Token, t.tokenType = .number →
        (numHasSpecial t.content = true ∨ parseInt64 t.content = none) →
        parseFloat64 t.content = none → parseTokenValue t = .vstr t.content) := by
  refine ⟨?_, ?_, ?_, ?_, ?_⟩
  · intro c
    induction c with
    | nil => simp [numHasSpecial]
    | cons ch rest ih =>
      by_cases h : (ch == '.' || ch == 'e' || ch == 'E') = true
      · simp only [numHasSpecial, h, if_true]
        simp only [Bool.or_eq_true, beq_iff_eq] at h
        constructor
        · intro hc; cases hc
        · intro hall
          rcases hall ch (List.mem_cons_self ch rest) with ⟨h1, h2, h3⟩
          rcases h with (h | h) | h
          · exact absurd h h1
          · exact absurd h h2
          · exact absurd h h3
      · rw [Bool.not_eq_true] at h
        have hch : ch ≠ '.' ∧ ch ≠ 'e' ∧ ch ≠ 'E' := by
          simp only [Bool.or_eq_false_iff, beq_eq_false_iff_ne] at h
          exact ⟨h.1.1, h.1.2, h.2⟩
        have hstep : numHasSpecial (ch :: rest) = numHasSpecial rest := by
          simp [numHasSpecial, h]
        rw [hstep, ih]
        constructor
        · intro hall ch2 hmem
          rcases List.mem_cons.mp hmem with h1 | h1
          · subst h1; exact hch
          · exact hall ch2 h1
        · intro hall ch2 hmem
          exact hall ch2 (List.mem_cons_of_mem ch hmem)
  · intro t n h1 h2 h3
    unfold parseTokenValue
    rw [h1]
    simp [h2, h3]
  · intro t q h1 h2 h3 h4
    unfold parseTokenValue
    rw [h1]
    simp [h2, h3, h4]
  · intro t q h1 h2 h3
    unfold parseTokenValue
    rw [h1]
    simp [h2, h3]
  · intro t h1 h2 h3
    unfold parseTokenValue
    rw [h1]
    rcases h2 with h2 | h2
    · simp [h2, h3]
    · by_cases h4 : numHasSpecial t.content = true
      · simp [h4, h3]
      · simp [h4, h2, h3]

set_option maxRecDepth 8192 in
/-- Witness for C8: `30` decodes through the integer path, a 20-digit
integer overflows into the float path, and `1+2` (a valid number-character
run the float grammar rejects) degrades to its raw text. -/
theorem c8_witness :
    parseTokenValue ⟨0, 2, .number, (("30").data), true⟩ = .vint 30
    ∧ parseTokenValue ⟨0, 20, .number, (("99999999999999999999").data), true⟩ =
        .vfloat ⟨99999999999999999999, 0⟩
    ∧ parseTokenValue ⟨0, 3, .number, (("1+2").data), true⟩ = .vstr (("1+2").data) :=
  ⟨c8_number_decoding_fallback.2.1 _ 30 rfl rfl rfl,
   c8_number_decoding_fallback.2.2.1 _ ⟨99999999999999999999, 0⟩ rfl rfl rfl rfl,
   c8_number_decoding_fallback.2.2.2.2 _ rfl (Or.inr rfl) rfl⟩

/-- C6: a Number token is completed iff a non-number byte is visible in the
buffer immediately after the scanned number; when the buffer ends exactly at
the end of the scan the token stays incomplete.  This holds for the fresh
scan and for the continuation. -/
theorem c6_number_completed_iff_boundary_byte :
    (∀ (ts : TokState) (startPos : Nat),
      ((parseNumber ts startPos).1.completed = true ↔
        ∃ c, ts.buffer.get? ((parseNumber ts startPos).1.tokenEnd) = some c ∧
          isNumberChar c = false)
      ∧ (ts.buffer.get? ((parseNumber ts startPos).1.tokenEnd) = none →
        (parseNumber ts startPos).1.completed = false))
    ∧ (∀ (ts : TokState) (t : Token),
      ((continueNumber ts t).1.completed = true ↔
        ∃ c, ts.buffer.get? ((continueNumber ts t).1.tokenEnd) = some c ∧
          isNumberChar c = false)
      ∧ (ts.buffer.get? ((continueNumber ts t).1.tokenEnd) = none →
        (continueNumber ts t).1.completed = false)) := by
  constructor
  · intro ts startPos
    unfold parseNumber
    cases h : ts.buffer.get? (numScan ts.buffer
        (if ts.buffer.get? ts.position == some '-' then ts.position + 1 else ts.position)) with
    | none =>
      simp only [List.get?_eq_getElem?, beq_iff_eq] at h
      simp [h]
    | some c =>
      simp only [List.get?_eq_getElem?, beq_iff_eq] at h
      cases hc : isNumberChar c <;> simp [h, hc]
  · intro ts t
    unfold continueNumber
    cases h : ts.buffer.get? (numScan ts.buffer ts.position) with
    | none =>
      simp only [List.get?_eq_getElem?] at h
      simp [h]
    | some c =>
      simp only [List.get?_eq_getElem?] at h
      cases hc : isNumberChar c <;> simp [h, hc]

/-- Witness for C6: `12` at the end of the buffer stays incomplete; `12,`
completes at the comma. -/
theorem c6_witness :
    (parseNumber { newTokenizer with buffer := [('1'), ('2')] } 0).1.completed = false
    ∧ (parseNumber { newTokenizer with buffer := [('1'), ('2'), (',')] } 0).1.completed
        = true :=
  ⟨(c6_number_completed_iff_boundary_byte.1
      { newTokenizer with buffer := [('1'), ('2')] } 0).2 rfl,
   ((c6_number_completed_iff_boundary_byte.1
      { newTokenizer with buffer := [('1'), ('2'), (',')] } 0).1).mpr
     ⟨(','), rfl, rfl⟩⟩

/-- If the buffer matches a prefix `pre` of the expected word and then shows
a byte different from the next expected character, the literal-matching loop
stops with a mismatch exactly at the end of the matched prefix. -/
theorem litScanAux_mismatch_of (buf : List Char) (e : Char) (suf : List Char) :
    ∀ (pre : List Char) (pos : Nat),
    (∀ j (hj : j < pre.length), buf.get? (pos + j) = some (pre.get ⟨j, hj⟩)) →
    ∀ c, buf.get? (pos + pre.length) = some c → c ≠ e →
    litScanAux buf (pre ++ e :: suf) pos = .mismatch (pos + pre.length) := by
  intro pre
  induction pre with
  | nil =>
    intro pos hmatch c hc hne
    have hc0 : buf.get? pos = some c := by simpa using hc
    have hbe : (c == e) = false := beq_eq_false_iff_ne.mpr hne
    simp only [List.nil_append, litScanAux, hc0, hbe, Bool.false_eq_true, if_false,
      List.length_nil, Nat.add_zero]
  | cons a pre ih =>
    intro pos hmatch c hc hne
    have h0 : buf.get? pos = some a := by
      have := hmatch 0 (by simp)
      simpa using this
    have hrec := ih (pos + 1)
      (fun j hj => by
        have := hmatch (j + 1) (by simpa using Nat.succ_lt_succ hj)
        simpa [Nat.add_comm, Nat.add_assoc, Nat.add_left_comm] using this)
      c (by
        have : pos + (a :: pre).length = pos + 1 + pre.length := by
          simp [Nat.add_comm, Nat.add_assoc, Nat.add_left_comm]
        rw [this] at hc
        exact hc) hne
    have harith : pos + 1 + pre.length = pos + (a :: pre).length := by
      simp [Nat.add_comm, Nat.add_assoc, Nat.add_left_comm]
    rw [harith] at hrec
    simp only [List.cons_append, litScanAux, h0, beq_self_eq_true, if_true]
    exact hrec

/-- If the buffer matches the whole word `w` starting at `pos`, the
literal-matching loop ends having consumed exactly `w.length` bytes. -/
theorem litScanAux_ended_of (buf : List Char) :
    ∀ (w : List Char) (pos : Nat),
    (∀ j (hj : j < w.length), buf.get? (pos + j) = some (w.get ⟨j, hj⟩)) →
    litScanAux buf w pos = .ended (pos + w.length) := by
  intro w
  induction w with
  | nil => intro pos hmatch; simp [litScanAux]
  | cons a w ih =>
    intro pos hmatch
    have h0 : buf.get? pos = some a := by
      have := hmatch 0 (by simp)
      simpa using this
    have hrec := ih (pos + 1)
      (fun j hj => by
        have := hmatch (j + 1) (by simpa using Nat.succ_lt_succ hj)
        simpa [Nat.add_comm, Nat.add_assoc, Nat.add_left_comm] using this)
    have harith : pos + 1 + w.length = pos + (a :: w).length := by
      simp [Nat.add_comm, Nat.add_assoc, Nat.add_left_comm]
    rw [harith] at hrec
    simp only [litScanAux, h0, beq_self_eq_true, if_true]
    exact hrec

/-- C5 counterexample: on the bogus word `truxx`, `parseBool`'s initial-scan
mismatch consumes only the matched prefix plus one byte — the first token is
a complete Invalid `trux` and a second Invalid `x` follows — although the
greedy letter run from the word's start spans all five bytes.  The claim's
single whole-word Invalid token is not produced. -/
theorem c5_counterexample_initial_mismatch_is_not_greedy :
    (nextToken { newTokenizer with buffer := (("truxx").data) }).1 =
      ⟨0, 4, .invalid, (("trux").data), true⟩
    ∧ (nextToken ((nextToken { newTokenizer with buffer := (("truxx").data) }).2)).1 =
      ⟨4, 5, .invalid, (("x").data), true⟩
    ∧ letterScan (("truxx").data) 0 = 5 :=
  ⟨rfl, rfl, rfl⟩

/-- C5 amended: a mismatch while scanning a literal afresh
(`parseBool`/`parseNull`) produces a complete Invalid token consisting of the
matched prefix plus the single mismatching byte; the greedy letter run is
consumed only when the full literal matches but the next byte is a letter,
or when the mismatch happens in the continuation path (`continueBool`). -/
theorem c5_amended_literal_mismatch_tokens :
    (∀ (ts : TokState) (pre : List Char) (e : Char) (suf : List Char) (c : Char),
      (if ts.buffer.get? ts.position == some 't' then trueChars else falseChars) =
          pre ++ e :: suf →
      (∀ j (hj : j < pre.length), ts.buffer.get? (ts.position + j) = some (pre.get ⟨j, hj⟩)) →
      ts.buffer.get? (ts.position + pre.length) = some c → c ≠ e →
      (parseBool ts ts.position).1 =
        ⟨ts.position, ts.position + pre.length + 1, .invalid,
         buildString ts.buffer ts.position (ts.position + pre.length + 1), true⟩)
    ∧ (∀ (ts : TokState) (pre : List Char) (e : Char) (suf : List Char) (c : Char),
      nullChars = pre ++ e :: suf →
      (∀ j (hj : j < pre.length), ts.buffer.get? (ts.position + j) = some (pre.get ⟨j, hj⟩)) →
      ts.buffer.get? (ts.position + pre.length) = some c → c ≠ e →
      (parseNull ts ts.position).1 =
        ⟨ts.position, ts.position + pre.length + 1, .invalid,
         buildString ts.buffer ts.position (ts.position + pre.length + 1), true⟩)
    ∧ (∀ (ts : TokState) (c : Char),
      (∀ j (hj : j < trueChars.length),
        ts.buffer.get? (ts.position + j) = some (trueChars.get ⟨j, hj⟩)) →
      ts.buffer.get? ts.position = some 't' →
      ts.buffer.get? (ts.position + trueChars.length) = some c → isLetter c = true →
      (parseBool ts ts.position).1 =
        ⟨ts.position, letterScan ts.buffer (ts.position + trueChars.length), .invalid,
         buildString ts.buffer ts.position
           (letterScan ts.buffer (ts.position + trueChars.length)), true⟩)
    ∧ (∀ (ts : TokState) (t : Token) (pre : List Char) (e : Char) (suf : List Char) (c : Char),
      ((if t.tokenEnd - t.tokenStart > 0 && ts.buffer.get? t.tokenStart == some 't' then
          trueChars else falseChars).drop (t.tokenEnd - t.tokenStart)) = pre ++ e :: suf →
      (∀ j (hj : j < pre.length), ts.buffer.get? (ts.position + j) = some (pre.get ⟨j, hj⟩)) →
      ts.buffer.get? (ts.position + pre.length) = some c → c ≠ e →
      (continueBool ts t).1 =
        ⟨t.tokenStart, letterScan ts.buffer (ts.position + pre.length), .invalid,
         buildString ts.buffer t.tokenStart
           (letterScan ts.buffer (ts.position + pre.length)), true⟩) := by
  refine ⟨?_, ?_, ?_, ?_⟩
  · intro ts pre e suf c hexp hpre hc hne
    have hm := litScanAux_mismatch_of ts.buffer e suf pre ts.position hpre c hc hne
    unfold parseBool litScan
    simp only [List.drop_zero, hexp, hm]
  · intro ts pre e suf c hexp hpre hc hne
    have hm := litScanAux_mismatch_of ts.buffer e suf pre ts.position hpre c hc hne
    unfold parseNull litScan
    simp only [List.drop_zero, hexp, hm]
  · intro ts c hpre ht hc hl
    have hm := litScanAux_ended_of ts.buffer trueChars ts.position hpre
    unfold parseBool litScan
    simp only [List.drop_zero, ht, beq_self_eq_true, if_true, hm,
      Nat.add_sub_cancel_left, hc, hl]
  · intro ts t pre e suf c hexp hpre hc hne
    have hm := litScanAux_mismatch_of ts.buffer e suf pre ts.position hpre c hc hne
    unfold continueBool litScan
    simp only [hexp, hm]

/-- Witness for C5 (amended): on the buffer `tx`, the initial scan matches
the prefix `t` of `true`, meets `x`, and yields the complete Invalid token
`tx` — prefix plus one byte. -/
theorem c5_amended_witness :
    (parseBool { newTokenizer with buffer := (("tx").data) } 0).1 =
      ⟨0, 2, .invalid, (("tx").data), true⟩ :=
  (c5_amended_literal_mismatch_tokens.1
      { newTokenizer with buffer := (("tx").data) } ([('t')]) (('r')) ([('u'), ('e')]) (('x'))
      rfl (by decide) rfl (by decide)).trans rfl

/-- With no open frame, `processCompleteToken` returns immediately. -/
theorem processCompleteToken_of_empty (t : Token) (p : PState) (h : p.stack = []) :
    processCompleteToken t p = p := by
  unfold processCompleteToken
  rw [h]

/-- With no open frame, `processIncompleteToken` returns immediately. -/
theorem processIncompleteToken_of_empty (t : Token) (p : PState) (h : p.stack = []) :
    processIncompleteToken t p = p := by
  unfold processIncompleteToken
  rw [h]

/-- With no open frame, the live tree is the stored root. -/
theorem currentRoot_of_empty (p : PState) (h : p.stack = []) :
    currentRoot p = p.root := by
  unfold currentRoot
  rw [h]

/-- Once the stack is empty and parsing has started, draining any number of
further tokens never changes the stack, the started flag, or the root: every
complete token falls into `processCompleteToken`'s empty-stack early return
and every incomplete token into `processIncompleteToken`'s. -/
theorem processTokens_preserves_completed :
    ∀ (fuel : Nat) (p : PState), p.stack = [] → p.started = true →
      (processTokens fuel p).stack = [] ∧ (processTokens fuel p).started = true ∧
      (processTokens fuel p).root = p.root := by
  intro fuel
  induction fuel with
  | zero => intro p h1 h2; exact ⟨h1, h2, rfl⟩
  | succ n ih =>
    intro p h1 h2
    rw [processTokens]
    split_ifs with he hi hs hc
    · exact ⟨h1, h2, rfl⟩
    · exact ih _ h1 h2
    · rw [show ({ p with tok := (nextToken p.tok).2 } : PState).started = p.started from rfl,
        h2] at hs
      cases hs
    · have hpc := processCompleteToken_of_empty (nextToken p.tok).1
        { tok := (nextToken p.tok).2, stack := p.stack, started := p.started, root := p.root }
        h1
      rw [hpc]
      exact ih _ h1 h2
    · have hpi := processIncompleteToken_of_empty (nextToken p.tok).1
        { tok := (nextToken p.tok).2, stack := p.stack, started := p.started, root := p.root }
        h1
      rw [hpi]
      exact ⟨h1, h2, rfl⟩

/-- C4: once `IsCompleted` holds it keeps holding across any further
`Append`, the root node is untouched, and every `Get` result is unchanged
(trailing garbage cannot corrupt the materialized tree). -/
theorem c4_completed_is_final :
    ∀ (p : PState) (s : List Char), isCompleted p = true →
      isCompleted (append p s) = true
      ∧ (append p s).root = p.root
      ∧ ∀ ks, get (append p s) ks = get p ks := by
  intro p s hc
  have hparts : p.stack = [] ∧ p.started = true := by simpa [isCompleted] using hc
  have h1 : p.stack = [] := hparts.1
  have h2 : p.started = true := hparts.2
  unfold append
  have hinv := processTokens_preserves_completed
    (2 * (tokAppend p.tok s).buffer.length + 4) { p with tok := tokAppend p.tok s } h1 h2
  refine ⟨?_, ?_, ?_⟩
  · unfold isCompleted
    rw [hinv.1, hinv.2.1]
    rfl
  · exact hinv.2.2
  · intro ks
    unfold get
    rw [currentRoot_of_empty _ hinv.1, currentRoot_of_empty _ h1, hinv.2.2]

/-- Witness for C4: a closed `\x7b\x7d` document stays completed and keeps
its root after appending garbage. -/
theorem c4_witness :
    isCompleted (append (append newParser (("\x7b\x7d").data)) (("garbage!").data)) = true
    ∧ (append (append newParser (("\x7b\x7d").data)) (("garbage!").data)).root =
        (append newParser (("\x7b\x7d").data)).root
    ∧ ∀ ks, get (append (append newParser (("\x7b\x7d").data)) (("garbage!").data)) ks =
        get (append newParser (("\x7b\x7d").data)) ks :=
  c4_completed_is_final (append newParser (("\x7b\x7d").data)) (("garbage!").data) rfl

/-- The string scanning loop never moves backwards and never walks past the
suffix it was given. -/
theorem stringScanAux_le :
    ∀ (l : List Char) (pos : Nat) (esc : Bool),
      pos ≤ (stringScanAux l pos esc).1 ∧ (stringScanAux l pos esc).1 ≤ pos + l.length := by
  intro l
  induction l with
  | nil => intro pos esc; simp [stringScanAux]
  | cons c rest ih =>
    intro pos esc
    unfold stringScanAux
    by_cases h1 : esc = true
    · subst h1
      simp only [if_true]
      have := ih (pos + 1) false
      constructor
      · exact Nat.le_trans (Nat.le_succ pos) this.1
      · exact Nat.le_trans this.2 (by simp [Nat.add_comm, Nat.add_assoc, Nat.add_left_comm])
    · rw [Bool.not_eq_true] at h1
      subst h1
      simp only [Bool.false_eq_true, if_false]
      by_cases h2 : (c == '\\') = true
      · rw [if_pos h2]
        have := ih (pos + 1) true
        constructor
        · exact Nat.le_trans (Nat.le_succ pos) this.1
        · exact Nat.le_trans this.2 (by simp [Nat.add_comm, Nat.add_assoc, Nat.add_left_comm])
      · rw [if_neg h2]
        by_cases h3 : (c == '"') = true
        · rw [if_pos h3]
          simp
        · rw [if_neg h3]
          have := ih (pos + 1) false
          constructor
          · exact Nat.le_trans (Nat.le_succ pos) this.1
          · exact Nat.le_trans this.2 (by simp [Nat.add_comm, Nat.add_assoc, Nat.add_left_comm])

/-- When the scanning loop reports a closed string, it consumed at least one
character and the consumed segment ends with the closing quote. -/
theorem stringScanAux_found :
    ∀ (l : List Char) (pos : Nat) (esc : Bool), (stringScanAux l pos esc).2.2 = true →
      pos < (stringScanAux l pos esc).1 ∧
      ∃ mid, l.take ((stringScanAux l pos esc).1 - pos) = mid ++ [('"')] := by
  intro l
  induction l with
  | nil => intro pos esc h; simp [stringScanAux] at h
  | cons c rest ih =>
    intro pos esc
    unfold stringScanAux
    by_cases h1 : esc = true
    · subst h1
      simp only [if_true]
      intro hf
      rcases ih (pos + 1) false hf with ⟨hlt, mid, hmid⟩
      refine ⟨Nat.lt_of_succ_le (Nat.le_of_lt hlt), c :: mid, ?_⟩
      have hk : (stringScanAux rest (pos + 1) false).1 - pos =
          ((stringScanAux rest (pos + 1) false).1 - (pos + 1)) + 1 := by omega
      rw [hk, List.take_succ_cons, hmid]
      rfl
    · rw [Bool.not_eq_true] at h1
      subst h1
      simp only [Bool.false_eq_true, if_false]
      by_cases h2 : (c == '\\') = true
      · rw [if_pos h2]
        intro hf
        rcases ih (pos + 1) true hf with ⟨hlt, mid, hmid⟩
        refine ⟨Nat.lt_of_succ_le (Nat.le_of_lt hlt), c :: mid, ?_⟩
        have hk : (stringScanAux rest (pos + 1) true).1 - pos =
            ((stringScanAux rest (pos + 1) true).1 - (pos + 1)) + 1 := by omega
        rw [hk, List.take_succ_cons, hmid]
        rfl
      · rw [if_neg h2]
        by_cases h3 : (c == '"') = true
        · rw [if_pos h3]
          intro _
          refine ⟨Nat.lt_succ_self pos, [], ?_⟩
          have hc : c = '"' := by simpa using h3
          subst hc
          simp
        · rw [if_neg h3]
          intro hf
          rcases ih (pos + 1) false hf with ⟨hlt, mid, hmid⟩
          refine ⟨Nat.lt_of_succ_le (Nat.le_of_lt hlt), c :: mid, ?_⟩
          have hk : (stringScanAux rest (pos + 1) false).1 - pos =
              ((stringScanAux rest (pos + 1) false).1 - (pos + 1)) + 1 := by omega
          rw [hk, List.take_succ_cons, hmid]
          rfl

/-- Consecutive buffer slices concatenate. -/
theorem buildString_concat (buf : List Char) (s p q : Nat) (h1 : s ≤ p) (h2 : p ≤ q) :
    buildString buf s p ++ buildString buf p q = buildString buf s q := by
  unfold buildString
  have hq : q - s = (p - s) + (q - p) := by omega
  rw [hq, List.take_add]
  have hd : (buf.drop s).drop (p - s) = buf.drop p := by
    rw [List.drop_drop]
    congr 1
    omega
  rw [hd]

/-- A slice of at least one character inside the buffer is nonempty. -/
theorem buildString_ne_nil (buf : List Char) (p q : Nat) (h1 : p < q)
    (h2 : p < buf.length) : buildString buf p q ≠ [] := by
  unfold buildString
  intro hc
  have hlen := congrArg List.length hc
  simp [List.length_take, List.length_drop] at hlen
  omega


/-- A complete String token whose content is properly quoted decodes to the
content with both quotes stripped. -/
theorem parseTokenValue_str (t : Token) (h : t.tokenType = .str)
    (h2 : 2 ≤ t.content.length ∧ t.content.head? = some ('"') ∧
      t.content.getLast? = some ('"')) :
    parseTokenValue t = .vstr ((t.content.drop 1).dropLast) := by
  simp only [parseTokenValue, h]
  rw [if_pos h2]

/-- C3: an incomplete String token under an object frame with a pending key
is attached at that key as a Value node holding the content with the opening
quote stripped and `complete = false`; continuing the same string only ever
appends to the token content (strictly, whenever bytes were consumed), the
stripped values extend likewise, and the completion stores a value that
still extends the last partial — so successive `Get` results never shrink
and never differ on their common prefix. -/
theorem c3_partial_string_growth :
    (∀ (p : PState) (f : Frame) (rest : List Frame) (t : Token),
      p.stack = f :: rest → f.kind = .obj → f.currentKey ≠ [] →
      t.tokenType = .str → t.content.head? = some '"' →
      (processIncompleteToken t p).stack =
        { f with entries := insertA f.entries f.currentKey (Node.val (.vstr (t.content.drop 1)) false) } :: rest)
    ∧ (∀ (ts : TokState) (t : Token), t.tokenStart ≤ ts.position →
      t.content = buildString ts.buffer t.tokenStart ts.position →
      ∃ ext, (continueString ts t).1.content = t.content ++ ext
        ∧ (ts.position < (stringScan ts.buffer ts.position ts.escapeNext).1 → ext ≠ []))
    ∧ (∀ (old ext : List Char), old ≠ [] → (old ++ ext).drop 1 = old.drop 1 ++ ext)
    ∧ (∀ (ts : TokState) (t : Token), t.tokenStart ≤ ts.position →
      t.content = buildString ts.buffer t.tokenStart ts.position →
      t.content.head? = some '"' → t.tokenType = .str →
      (stringScan ts.buffer ts.position ts.escapeNext).2.2 = true →
      ∃ ext, parseTokenValue (continueString ts t).1 = .vstr ((t.content.drop 1) ++ ext)) := by
  refine ⟨?_, ?_, ?_, ?_⟩
  · intro p f rest t hstack hkind hkey htype hhead
    obtain ⟨tail, hcontent⟩ : ∃ tail, t.content = ('"') :: tail := by
      cases hc : t.content with
      | nil => rw [hc] at hhead; cases hhead
      | cons a tl =>
        rw [hc] at hhead
        simp only [List.head?_cons, Option.some.injEq] at hhead
        exact ⟨tl, by rw [hhead]⟩
    simp [processIncompleteToken, hstack, htype, hkind, hkey, hcontent]
  · intro ts t hle hcontent
    have hge : ts.position ≤ (stringScan ts.buffer ts.position ts.escapeNext).1 :=
      (stringScanAux_le (ts.buffer.drop ts.position) ts.position ts.escapeNext).1
    have hub : (stringScan ts.buffer ts.position ts.escapeNext).1 ≤
        ts.position + (ts.buffer.drop ts.position).length :=
      (stringScanAux_le (ts.buffer.drop ts.position) ts.position ts.escapeNext).2
    refine ⟨buildString ts.buffer ts.position
      (stringScan ts.buffer ts.position ts.escapeNext).1, ?_, ?_⟩
    · show buildString ts.buffer t.tokenStart
        (stringScan ts.buffer ts.position ts.escapeNext).1 = _
      rw [hcontent, buildString_concat ts.buffer t.tokenStart ts.position
        (stringScan ts.buffer ts.position ts.escapeNext).1 hle hge]
    · intro hlt
      apply buildString_ne_nil _ _ _ hlt
      have hlen : (ts.buffer.drop ts.position).length = ts.buffer.length - ts.position :=
        List.length_drop _ _
      omega
  · intro old ext h
    cases old with
    | nil => exact absurd rfl h
    | cons a tl => simp
  · intro ts t hle hcontent hhead htype hfound
    have hge : ts.position ≤ (stringScan ts.buffer ts.position ts.escapeNext).1 :=
      (stringScanAux_le (ts.buffer.drop ts.position) ts.position ts.escapeNext).1
    rcases stringScanAux_found (ts.buffer.drop ts.position) ts.position ts.escapeNext hfound
      with ⟨hlt, mid, hmid⟩
    obtain ⟨tail, hcTail⟩ : ∃ tail, t.content = ('"') :: tail := by
      cases hc : t.content with
      | nil => rw [hc] at hhead; cases hhead
      | cons a tl =>
        rw [hc] at hhead
        simp only [List.head?_cons, Option.some.injEq] at hhead
        exact ⟨tl, by rw [hhead]⟩
    have hc2 : (continueString ts t).1.content = t.content ++ (mid ++ [('"')]) := by
      show buildString ts.buffer t.tokenStart
        (stringScan ts.buffer ts.position ts.escapeNext).1 = _
      rw [← buildString_concat ts.buffer t.tokenStart ts.position
        (stringScan ts.buffer ts.position ts.escapeNext).1 hle hge, ← hcontent]
      exact congrArg (fun z => t.content ++ z) hmid
    have ht2 : (continueString ts t).1.tokenType = TokenType.str := by
      show t.tokenType = _
      exact htype
    have hshape : (continueString ts t).1.content = ('"') :: ((tail ++ mid) ++ [('"')]) := by
      rw [hc2, hcTail]
      simp
    have hcond2 : 2 ≤ (continueString ts t).1.content.length ∧
        (continueString ts t).1.content.head? = some ('"') ∧
        (continueString ts t).1.content.getLast? = some ('"') := by
      rw [hshape]
      refine ⟨?_, rfl, ?_⟩
      · simp
        omega
      · rw [show ('"') :: ((tail ++ mid) ++ [('"')]) = (('"') :: (tail ++ mid)) ++ [('"')]
          from rfl]
        exact List.getLast?_concat _
    refine ⟨mid, ?_⟩
    rw [parseTokenValue_str _ ht2 hcond2, hshape, hcTail]
    rw [List.drop_succ_cons, List.drop_zero, List.drop_succ_cons, List.drop_zero,
      List.dropLast_concat]

/-- Witness for C3: a pending key `m` receives the partial `He` from the
incomplete token `"He`; continuing against `"Hello` extends the content, and
completing against `"Hello"` stores a strict extension of the last partial. -/
theorem c3_witness :
    (processIncompleteToken ⟨5, 8, .str, (("\"He").data), false⟩
        { tok := newTokenizer,
          stack := [⟨.obj, [], [], (("m").data), false, true, .root⟩],
          started := true, root := none }).stack =
      [⟨.obj, [((("m").data), Node.val (.vstr (("He").data)) false)], [], (("m").data),
        false, true, .root⟩]
    ∧ (∃ ext, (continueString
          { buffer := (("\"Hello").data), position := 3, lastToken := none,
            escapeNext := false, expectingKey := false }
          ⟨0, 3, .str, (("\"He").data), false⟩).1.content = (("\"He").data) ++ ext
        ∧ (3 < (stringScan (("\"Hello").data) 3 false).1 → ext ≠ []))
    ∧ (∃ ext, parseTokenValue (continueString
          { buffer := (("\"Hello\"").data), position := 3, lastToken := none,
            escapeNext := false, expectingKey := false }
          ⟨0, 3, .str, (("\"He").data), false⟩).1 = .vstr ((("He").data) ++ ext)) :=
  ⟨(c3_partial_string_growth.1
      { tok := newTokenizer,
        stack := [⟨.obj, [], [], (("m").data), false, true, .root⟩],
        started := true, root := none }
      ⟨.obj, [], [], (("m").data), false, true, .root⟩ []
      ⟨5, 8, .str, (("\"He").data), false⟩ rfl rfl (by decide) rfl rfl).trans rfl,
   c3_partial_string_growth.2.1
      { buffer := (("\"Hello").data), position := 3, lastToken := none,
        escapeNext := false, expectingKey := false }
      ⟨0, 3, .str, (("\"He").data), false⟩ (by decide) rfl,
   c3_partial_string_growth.2.2.2
      { buffer := (("\"Hello\"").data), position := 3, lastToken := none,
        escapeNext := false, expectingKey := false }
      ⟨0, 3, .str, (("\"He").data), false⟩ (by decide) rfl rfl rfl rfl⟩

end StreamJSON
